import Mathlib

/-!
Shallow embedding of the louvre markup parser (src/src/parser.cpp and
src/include/louvre/api.hpp).

The C++ parser scans an in-memory string, collapses whitespace, recognizes
`#tag(arg,...)` invocations, dispatches them through a tag-binding table and
builds a document tree whose nodes carry parent back-references, an ordered
child list and a sibling index.

Modelling choices:
* the cursor state (`mSource`/`mOffset`/`mLine`/`mColumn`) is represented by
  the remaining suffix of the source plus line and column counters;
  `can_advance amount` (`mOffset + amount < mSource.length()`) becomes
  `amount < rest.length`, `peek ahead` becomes `rest[ahead]?`;
* `std::shared_ptr<Node>` graphs become an arena: a list of nodes addressed
  by index, with parent/child links stored as indices;
* the scanning loops are written with an explicit fuel argument so that all
  definitions compute; the top-level wrappers supply `length + 1` fuel, which
  is sufficient because every loop iteration consumes at least one character.
-/

namespace Louvre

/-- `enum class StandardNodeType` (api.hpp). `Numebrs` keeps the source's
spelling. -/
inductive StandardNodeType
  | Root | Left | Center | Right | Justify | Paragraph | Numebrs | Bullets
  | Item | Text | LineBreak | Null | Group
deriving DecidableEq, Repr

/-- `enum class ParserAction` (api.hpp). -/
inductive ParserAction
  | End | AddChild | AddChildAndBranch | Ignore
deriving DecidableEq, Repr

/-- `SourceLocation` as constructed by `Parser::location()` in parser.cpp:
a line/column pair. -/
structure SourceLocation where
  line : Nat
  column : Nat
deriving DecidableEq, Repr

/-- `class Tag`: immutable name and location, ordered argument list. -/
structure Tag where
  name : List Char
  location : SourceLocation
  arguments : List (List Char)
deriving DecidableEq, Repr

/-- `Tag::add_argument`: push one argument at the back. -/
def Tag.add_argument (t : Tag) (argument : List Char) : Tag :=
  { t with arguments := t.arguments ++ [argument] }

/-- `class Node`: type variant, optional text, optional originating tag,
parent back-reference and child list (as arena indices), sibling index. -/
structure Node where
  type : StandardNodeType ⊕ List Char
  text : Option (List Char)
  tag : Option Tag
  parent : Option Nat
  children : List Nat
  num : Nat
deriving DecidableEq, Repr

/-- `Node(StandardNodeType type)`: fresh node of a given standard type. -/
def mkNode (t : StandardNodeType) : Node :=
  ⟨Sum.inl t, none, none, none, [], 0⟩

/-- `Node::text(std::string text)`: a Text node holding literal text. -/
def Node.textNode (s : List Char) : Node :=
  ⟨Sum.inl StandardNodeType.Text, some s, none, none, [], 0⟩

/-- `class SyntaxError`: message plus location. -/
structure SyntaxError where
  message : String
  location : SourceLocation
deriving DecidableEq, Repr

/-- `class TagError`: message plus offending tag. -/
structure TagError where
  message : String
  tag : Tag
deriving DecidableEq, Repr

/-- `class NodeError`: message plus offending node. -/
structure NodeError where
  message : String
  node : Node
deriving DecidableEq, Repr

/-- Cursor state of `Parser`: the not-yet-consumed suffix of the source plus
the line/column counters. -/
structure PState where
  rest : List Char
  line : Nat
  column : Nat
deriving DecidableEq, Repr

/-- `Parser::location()`. -/
def location (s : PState) : SourceLocation :=
  ⟨s.line, s.column⟩

/-- `Parser::advance(amount)`: move the offset and column forward. -/
def advance (s : PState) (amount : Nat) : PState :=
  ⟨s.rest.drop amount, s.line, s.column + amount⟩

/-- `Parser::advance_line()`: next line, column reset to zero. -/
def advance_line (s : PState) : PState :=
  ⟨s.rest, s.line + 1, 0⟩

/-- `Parser::quick_peek(ahead)`: the character `ahead` positions forward, or
`'\0'` past the end of input. -/
def quick_peek (s : PState) (ahead : Nat) : Char :=
  (s.rest[ahead]?).getD (Char.ofNat 0)

/-- `std::isspace` / `std::iswspace` on the characters the parser handles
(the C locale set: space, tab, newline, vertical tab, form feed, carriage
return). -/
def isspace (c : Char) : Bool :=
  c == ' ' || c == '\t' || c == '\n' || c == Char.ofNat 11 ||
    c == Char.ofNat 12 || c == '\r'

/-- `std::iswspace` on the same character set as `isspace`. -/
def iswspace (c : Char) : Bool :=
  isspace c

/-- `std::iswalnum` in the C locale: ASCII digits and letters. -/
def iswalnum (c : Char) : Bool :=
  (48 ≤ c.toNat && c.toNat ≤ 57) || (97 ≤ c.toNat && c.toNat ≤ 122) ||
    (65 ≤ c.toNat && c.toNat ≤ 90)

/-- `Parser::is_tag_char`: alphanumeric or underscore. -/
def is_tag_char (c : Char) : Bool :=
  iswalnum c || c == '_'

/-- `Parser::trim`: scan `start` forward over leading whitespace, scan `end`
backward over trailing whitespace (bounded below by `start`), keep the middle
substring. -/
def trim (s : List Char) : List Char :=
  let t := s.dropWhile isspace
  t.take (t.length - (t.reverse.takeWhile isspace).length)

/-- `Parser::skip_whitespace()`: advance while the current character is
whitespace. -/
def skip_whitespace (s : PState) : PState :=
  advance s (s.rest.takeWhile iswspace).length

/-- `Parser::collect_sequence()`: consume and return the maximal run of tag
characters at the cursor. -/
def collect_sequence (s : PState) : List Char × PState :=
  (s.rest.takeWhile is_tag_char, advance s (s.rest.takeWhile is_tag_char).length)

/-- `Parser::consume_if(allowed)`: EOF yields `SyntaxError "Unexpected EOF"`,
a character outside `allowed` yields `SyntaxError "Unexpected token"`,
otherwise the character is consumed and returned. -/
def consume_if (allowed : List Char) (s : PState) :
    (Char ⊕ SyntaxError) × PState :=
  match s.rest with
  | [] => (Sum.inr ⟨"Unexpected EOF", location s⟩, s)
  | c :: _ =>
    if allowed.contains c then (Sum.inl c, advance s 1)
    else (Sum.inr ⟨"Unexpected token", location s⟩, s)

/-- The argument loop of `Parser::collect_tag()` (the `while (true)` after a
`"("` was consumed): skip whitespace, collect one identifier run, record it if
non-empty, then require `","` (continue) or `")"` (stop). `fuel` only bounds
the iteration count; each iteration consumes at least the character eaten by
`consume_if`, so `rest.length + 1` fuel is never exhausted. -/
def collect_args (fuel : Nat) (tag : Tag) (s : PState) :
    (Tag ⊕ SyntaxError) × PState :=
  match fuel with
  | 0 => (Sum.inl tag, s)
  | fuel + 1 =>
    let s1 := skip_whitespace s
    let arg := (collect_sequence s1).1
    let s2 := (collect_sequence s1).2
    let tag1 := if arg.isEmpty then tag else tag.add_argument arg
    match (consume_if [',', ')'] s2).1 with
    | Sum.inr e => (Sum.inr e, (consume_if [',', ')'] s2).2)
    | Sum.inl c =>
      if c == ')' then (Sum.inl tag1, (consume_if [',', ')'] s2).2)
      else collect_args fuel tag1 (consume_if [',', ')'] s2).2

/-- `Parser::collect_tag()`: step over the `"#"`, snapshot the location,
collect the tag name; if no `"("` follows (the failed `consume_if` consumes
nothing and its error is dropped) return the tag with zero arguments,
otherwise run the argument loop. -/
def collect_tag (s : PState) : (Tag ⊕ SyntaxError) × PState :=
  let s1 := advance s 1
  let loc := location s1
  let tag_name := (collect_sequence s1).1
  let s2 := (collect_sequence s1).2
  let tag : Tag := ⟨tag_name, loc, []⟩
  match (consume_if ['('] s2).1 with
  | Sum.inr _ => (Sum.inl tag, (consume_if ['('] s2).2)
  | Sum.inl _ =>
    collect_args (((consume_if ['('] s2).2).rest.length + 1) tag
      (consume_if ['('] s2).2

/-- A tag handler: `std::function<std::pair<ParserAction, Node>(...)`. -/
abbrev Handler := Tag → ParserAction × Node

/-- The tag-binding table `mTagBindings`, keyed by tag name. -/
abbrev Bindings := List (List Char × Handler)

/-- `Parser::add_tag_binding`: `mTagBindings[tag] = binding`. Lookups take
the most recent binding for a name, matching map insert-or-assign. -/
def add_tag_binding (tag : List Char) (binding : Handler) (m : Bindings) :
    Bindings :=
  (tag, binding) :: m

/-- `mTagBindings.contains` / `mTagBindings.at` combined: the handler bound
to a name, if any. -/
def lookup_binding (m : Bindings) (name : List Char) : Option Handler :=
  match m with
  | [] => none
  | (k, h) :: rest => if k = name then some h else lookup_binding rest name

/-- The bindings installed by the `Parser` constructor: `#end`, `#left`,
`#center`, `#right`, `#justify`, `#paragraph`, `#numbers`, `#bullets`,
`#item` and the empty-name tag (bare `#`, a line break). -/
def defaultBindings : Bindings :=
  add_tag_binding "".toList
      (fun _ => (ParserAction.AddChild, mkNode StandardNodeType.LineBreak)) <|
  add_tag_binding "item".toList
      (fun _ => (ParserAction.AddChildAndBranch, mkNode StandardNodeType.Item)) <|
  add_tag_binding "bullets".toList
      (fun _ => (ParserAction.AddChildAndBranch, mkNode StandardNodeType.Bullets)) <|
  add_tag_binding "numbers".toList
      (fun _ => (ParserAction.AddChildAndBranch, mkNode StandardNodeType.Numebrs)) <|
  add_tag_binding "paragraph".toList
      (fun _ => (ParserAction.AddChildAndBranch, mkNode StandardNodeType.Paragraph)) <|
  add_tag_binding "justify".toList
      (fun _ => (ParserAction.AddChildAndBranch, mkNode StandardNodeType.Justify)) <|
  add_tag_binding "right".toList
      (fun _ => (ParserAction.AddChildAndBranch, mkNode StandardNodeType.Right)) <|
  add_tag_binding "center".toList
      (fun _ => (ParserAction.AddChildAndBranch, mkNode StandardNodeType.Center)) <|
  add_tag_binding "left".toList
      (fun _ => (ParserAction.AddChildAndBranch, mkNode StandardNodeType.Left)) <|
  add_tag_binding "end".toList
      (fun _ => (ParserAction.End, mkNode StandardNodeType.Null)) []

/-- `Parser::tag_to_node`: look the tag name up; on a miss report
`TagError "Unknown tag"`, on a hit run the handler and attach the tag to the
produced node template. -/
def tag_to_node (m : Bindings) (tag : Tag) :
    (ParserAction × Node) ⊕ TagError :=
  match lookup_binding m tag.name with
  | some handler =>
    Sum.inl ((handler tag).1, { (handler tag).2 with tag := some tag })
  | none => Sum.inr ⟨"Unknown tag", tag⟩

/-- Arena read with a junk default for out-of-range indices. -/
def getN (nodes : List Node) (i : Nat) : Node :=
  nodes.getD i (mkNode StandardNodeType.Null)

/-- `Node::add_child(child)`: the child's sibling index becomes the parent's
current child count, the child is appended to the parent's child list, and
the child's parent pointer is set. Returns the new arena and the index of
the added node. -/
def add_child (nodes : List Node) (p : Nat) (child : Node) :
    List Node × Nat :=
  let newIdx := nodes.length
  let pn := getN nodes p
  let child1 := { child with num := pn.children.length, parent := some p }
  ((nodes.set p { pn with children := pn.children ++ [newIdx] }) ++ [child1],
    newIdx)

/-- One result of `Parser::collect_block()`:
`variant<pair<ParserAction, Node>, SyntaxError, TagError>`. -/
inductive BlockResult
  | block (action : ParserAction) (node : Node)
  | synErr (e : SyntaxError)
  | tagErr (e : TagError)
deriving DecidableEq, Repr

/-- `buf.ends_with(' ')`. -/
def ends_with_space (buf : List Char) : Bool :=
  buf.getLast? == some ' '

/-- The scanning loop of `Parser::collect_block()`: discard tabs, collapse
space/newline runs to a single buffered space, treat `"##"` as an escaped
literal `"#"`, buffer ordinary characters; at a lone `"#"` emit the trimmed
buffer as a Text block if non-empty (leaving the `"#"` unconsumed), else
parse and dispatch the tag; at end of input emit the trimmed buffer if
non-empty, else nothing. `fuel` only bounds iterations; every iteration
consumes at least one character. -/
def collect_block_loop (m : Bindings) (fuel : Nat) (buf : List Char)
    (s : PState) : Option BlockResult × PState :=
  match fuel with
  | 0 => (none, s)
  | fuel + 1 =>
    match s.rest with
    | [] =>
      if (trim buf).isEmpty then (none, s)
      else
        (some (BlockResult.block ParserAction.AddChild
          (Node.textNode (trim buf))), s)
    | cur :: _ =>
      if cur == '\t' then
        collect_block_loop m fuel buf (advance s 1)
      else if cur == ' ' then
        collect_block_loop m fuel
          (if ends_with_space buf then buf else buf ++ [' ']) (advance s 1)
      else
        let next := quick_peek s 1
        if cur == next && cur == '#' then
          collect_block_loop m fuel (buf ++ [cur]) (advance s 2)
        else if cur == '\n' || cur == '\r' then
          collect_block_loop m fuel
            (if ends_with_space buf then buf else buf ++ [' '])
            (advance_line (advance s 1))
        else if cur != '#' then
          collect_block_loop m fuel (buf ++ [cur]) (advance s 1)
        else if !(trim buf).isEmpty then
          (some (BlockResult.block ParserAction.AddChild
            (Node.textNode (trim buf))), s)
        else
          match (collect_tag s).1 with
          | Sum.inr e => (some (BlockResult.synErr e), (collect_tag s).2)
          | Sum.inl tag =>
            match tag_to_node m tag with
            | Sum.inr e => (some (BlockResult.tagErr e), (collect_tag s).2)
            | Sum.inl an =>
              (some (BlockResult.block an.1 an.2), (collect_tag s).2)

/-- `Parser::collect_block()` with an empty buffer and sufficient fuel. -/
def collect_block (m : Bindings) (s : PState) : Option BlockResult × PState :=
  collect_block_loop m (s.rest.length + 1) [] s

/-- The outcome of `Parser::parse()`:
`variant<shared_ptr<Node>, SyntaxError, TagError, NodeError>`, the node given
as the final arena plus the index of the returned node. -/
inductive ParseResult
  | ok (nodes : List Node) (root : Nat)
  | synErr (e : SyntaxError)
  | tagErr (e : TagError)
  | nodeErr (e : NodeError)
deriving DecidableEq, Repr

/-- The `while (can_advance())` driver loop of `Parser::parse()`: collect a
block, stop on "nothing left", propagate errors, otherwise apply the action
to the current branch (`root` in the source): AddChild attaches,
AddChildAndBranch attaches and descends, End fails at the top level with
`NodeError "Unexpected branch return at root leve"` (spelling as in the
source) or ascends to the parent, anything else is a no-op. -/
def parse_loop (m : Bindings) (fuel : Nat) (s : PState) (nodes : List Node)
    (root : Nat) : ParseResult :=
  match fuel with
  | 0 => ParseResult.ok nodes root
  | fuel + 1 =>
    if s.rest.isEmpty then ParseResult.ok nodes root
    else
      match (collect_block m s).1 with
      | none => ParseResult.ok nodes root
      | some (BlockResult.synErr e) => ParseResult.synErr e
      | some (BlockResult.tagErr e) => ParseResult.tagErr e
      | some (BlockResult.block action node) =>
        match action with
        | ParserAction.AddChild =>
          parse_loop m fuel (collect_block m s).2
            (add_child nodes root node).1 root
        | ParserAction.AddChildAndBranch =>
          parse_loop m fuel (collect_block m s).2
            (add_child nodes root node).1 (add_child nodes root node).2
        | ParserAction.End =>
          match (getN nodes root).parent with
          | none =>
            ParseResult.nodeErr
              ⟨"Unexpected branch return at root leve", node⟩
          | some p => parse_loop m fuel (collect_block m s).2 nodes p
        | ParserAction.Ignore =>
          parse_loop m fuel (collect_block m s).2 nodes root

/-- `Parser::parse()` over a source string, with the arena initialized to
the fresh root node (`std::make_shared<Node>()`, type Root). -/
def parse (m : Bindings) (src : List Char) : ParseResult :=
  parse_loop m (src.length + 1) ⟨src, 0, 0⟩ [mkNode StandardNodeType.Root] 0

/-- The sequence of block results `Parser::parse()` consumes, in order,
stopping at the first error or at "nothing left". -/
def block_stream (m : Bindings) (fuel : Nat) (s : PState) :
    List BlockResult :=
  match fuel with
  | 0 => []
  | fuel + 1 =>
    if s.rest.isEmpty then []
    else
      match (collect_block m s).1 with
      | none => []
      | some (BlockResult.synErr e) => [BlockResult.synErr e]
      | some (BlockResult.tagErr e) => [BlockResult.tagErr e]
      | some (BlockResult.block action node) =>
        BlockResult.block action node ::
          block_stream m fuel (collect_block m s).2

/-- The tree-building fold of `Parser::parse()`, abstracted over the list of
block results it consumes. -/
def drive (nodes : List Node) (root : Nat) : List BlockResult → ParseResult
  | [] => ParseResult.ok nodes root
  | BlockResult.synErr e :: _ => ParseResult.synErr e
  | BlockResult.tagErr e :: _ => ParseResult.tagErr e
  | BlockResult.block action node :: rest =>
    match action with
    | ParserAction.AddChild => drive (add_child nodes root node).1 root rest
    | ParserAction.AddChildAndBranch =>
      drive (add_child nodes root node).1 (add_child nodes root node).2 rest
    | ParserAction.End =>
      match (getN nodes root).parent with
      | none =>
        ParseResult.nodeErr ⟨"Unexpected branch return at root leve", node⟩
      | some p => drive nodes p rest
    | ParserAction.Ignore => drive nodes root rest

/-- A block result that is an ordinary block (not an error). -/
def is_block : BlockResult → Bool
  | BlockResult.block _ _ => true
  | _ => false

/-- A block stream that contains no scanner or tag errors. -/
def stream_ok (l : List BlockResult) : Prop :=
  ∀ r ∈ l, is_block r = true

instance : DecidablePred stream_ok := fun l =>
  List.decidableBAll _ l

/-- The parser actions carried by a block stream, in order. -/
def actions (l : List BlockResult) : List ParserAction :=
  l.filterMap fun r =>
    match r with
    | BlockResult.block a _ => some a
    | _ => none

/-- How many actions of a list are `AddChildAndBranch` (opened branches). -/
def countB (l : List ParserAction) : Nat :=
  l.countP fun a => a == ParserAction.AddChildAndBranch

/-- How many actions of a list are `End` (closed branches). -/
def countE (l : List ParserAction) : Nat :=
  l.countP fun a => a == ParserAction.End

/-- Starting from `d` open branches, no prefix of the action list closes
more branches than are open: every `End` has an open branch to match. -/
def NeverBelow (l : List ParserAction) (d : Nat) : Prop :=
  ∀ n, n ≤ l.length → countE (l.take n) ≤ countB (l.take n) + d

instance (l : List ParserAction) (d : Nat) : Decidable (NeverBelow l d) :=
  Nat.decidableBallLE l.length _

/-- The implicit branch stack: `Chain nodes cur bs` says the parent links
from `cur` pass exactly through the indices in `bs` and bottom out at the
original root, index 0. -/
def Chain (nodes : List Node) : Nat → List Nat → Prop
  | cur, [] => cur = 0
  | cur, p :: bs => (getN nodes cur).parent = some p ∧ Chain nodes p bs

/-- Sibling-index invariant (plus parent indices pointing strictly down):
every attached node is found in its parent's child list at position `num`. -/
def SibInv (nodes : List Node) : Prop :=
  ∀ i, i < nodes.length → ∀ q, (getN nodes i).parent = some q →
    q < i ∧ ((getN nodes q).children)[(getN nodes i).num]? = some i

/-- Root invariant: node 0 exists, is the parentless Root node. -/
def RootInv (nodes : List Node) : Prop :=
  0 < nodes.length ∧ (getN nodes 0).parent = none ∧
    (getN nodes 0).type = Sum.inl StandardNodeType.Root

/-- A user-registered handler for the tag name `"tag"`: attach a custom
(string-typed) node, do not branch. -/
def customTagHandler : Handler := fun _ =>
  (ParserAction.AddChild, ⟨Sum.inr "tag".toList, none, none, none, [], 0⟩)


theorem skip_whitespace_le (s : PState) :
    ((skip_whitespace s).rest).length ≤ s.rest.length := by
  simp [skip_whitespace, advance]

theorem collect_sequence_le (s : PState) :
    (((collect_sequence s).2).rest).length ≤ s.rest.length := by
  simp [collect_sequence, advance]

theorem consume_if_le (allowed : List Char) (s : PState) :
    (((consume_if allowed s).2).rest).length ≤ s.rest.length := by
  cases hr : s.rest with
  | nil => simp [consume_if, hr]
  | cons c r =>
    by_cases hc : c ∈ allowed
    · simp [consume_if, hr, hc, advance]
    · simp [consume_if, hr, hc]

theorem consume_if_inl (allowed : List Char) (s : PState) (c : Char)
    (h : (consume_if allowed s).1 = Sum.inl c) :
    (((consume_if allowed s).2).rest).length + 1 = s.rest.length := by
  cases hr : s.rest with
  | nil => simp [consume_if, hr] at h
  | cons a r =>
    by_cases hc : a ∈ allowed
    · simp [consume_if, hr, hc, advance]
    · simp [consume_if, hr, hc] at h

theorem collect_args_le (fuel : Nat) :
    ∀ tag s, (((collect_args fuel tag s).2).rest).length ≤ s.rest.length := by
  induction fuel with
  | zero => intro tag s; exact Nat.le_refl _
  | succ fuel ih =>
    intro tag s
    have h1 := skip_whitespace_le s
    have h2 := collect_sequence_le (skip_whitespace s)
    have h3 := consume_if_le [',', ')'] ((collect_sequence (skip_whitespace s)).2)
    simp only [collect_args]
    split
    · exact le_trans h3 (le_trans h2 h1)
    · split
      · exact le_trans h3 (le_trans h2 h1)
      · exact le_trans (ih _ _) (le_trans h3 (le_trans h2 h1))

theorem collect_tag_le (s : PState) :
    (((collect_tag s).2).rest).length + 1 ≤ s.rest.length ∨ s.rest = [] := by
  cases hr : s.rest with
  | nil =>
    right; rfl
  | cons c r =>
    left
    have h1 : ((advance s 1).rest).length = r.length := by
      simp [advance, hr]
    have h2 := collect_sequence_le (advance s 1)
    have h3 := consume_if_le ['('] ((collect_sequence (advance s 1)).2)
    have h4 := collect_args_le
      ((((consume_if ['('] ((collect_sequence (advance s 1)).2)).2).rest).length + 1)
      ⟨(collect_sequence (advance s 1)).1, location (advance s 1), []⟩
      ((consume_if ['('] ((collect_sequence (advance s 1)).2)).2)
    simp only [collect_tag]
    split
    · have := le_trans h3 h2
      rw [h1] at this
      simp [hr]
      omega
    · have := le_trans h4 (le_trans h3 h2)
      rw [h1] at this
      simp [hr]
      omega

theorem collect_block_loop_le (m : Bindings) (fuel : Nat) :
    ∀ buf s, (((collect_block_loop m fuel buf s).2).rest).length ≤
      s.rest.length := by
  induction fuel with
  | zero => intro buf s; exact Nat.le_refl _
  | succ fuel ih =>
    intro buf s
    cases hr : s.rest with
    | nil =>
      simp only [collect_block_loop, hr]
      split <;> simp [hr]
    | cons c r =>
      simp only [collect_block_loop, hr]
      have h1 : (advance s 1).rest = r := by simp [advance, hr]
      have h2 : (advance s 2).rest = r.drop 1 := by simp [advance, hr]
      have h3 : (advance_line (advance s 1)).rest = r := by
        simp [advance_line, advance, hr]
      have hd : (r.drop 1).length ≤ r.length := by
        rw [List.length_drop]
        omega
      have hct : (((collect_tag s).2).rest).length ≤ r.length := by
        rcases collect_tag_le s with hx | hx
        · rw [hr] at hx; simpa using hx
        · rw [hr] at hx; cases hx
      simp only [List.length_cons]
      split
      · have := ih buf (advance s 1)
        rw [h1] at this; omega
      · split
        · have := ih (if ends_with_space buf then buf else buf ++ [' '])
            (advance s 1)
          rw [h1] at this; omega
        · split
          · have := ih (buf ++ [c]) (advance s 2)
            rw [h2] at this; omega
          · split
            · have := ih (if ends_with_space buf then buf else buf ++ [' '])
                (advance_line (advance s 1))
              rw [h3] at this; omega
            · split
              · have := ih (buf ++ [c]) (advance s 1)
                rw [h1] at this; omega
              · split
                · simp [hr]
                · split
                  · exact le_trans hct (Nat.le_succ _)
                  · split
                    · exact le_trans hct (Nat.le_succ _)
                    · exact le_trans hct (Nat.le_succ _)

theorem collect_block_loop_strict (m : Bindings) (fuel : Nat) (s : PState)
    (c : Char) (r : List Char) (hr : s.rest = c :: r) :
    (((collect_block_loop m (fuel + 1) [] s).2).rest).length ≤ r.length := by
  simp only [collect_block_loop, hr]
  have h1 : (advance s 1).rest = r := by simp [advance, hr]
  have h2 : (advance s 2).rest = r.drop 1 := by simp [advance, hr]
  have h3 : (advance_line (advance s 1)).rest = r := by
    simp [advance_line, advance, hr]
  have hd : (r.drop 1).length ≤ r.length := by
    rw [List.length_drop]
    omega
  have hct : (((collect_tag s).2).rest).length ≤ r.length := by
    rcases collect_tag_le s with hx | hx
    · rw [hr] at hx; simpa using hx
    · rw [hr] at hx; cases hx
  split
  · have := collect_block_loop_le m fuel [] (advance s 1)
    rw [h1] at this; omega
  · split
    · have := collect_block_loop_le m fuel
        (if ends_with_space [] then [] else [] ++ [' ']) (advance s 1)
      rw [h1] at this; omega
    · split
      · have := collect_block_loop_le m fuel ([] ++ [c]) (advance s 2)
        rw [h2] at this; omega
      · split
        · have := collect_block_loop_le m fuel
            (if ends_with_space [] then [] else [] ++ [' '])
            (advance_line (advance s 1))
          rw [h3] at this; omega
        · split
          · have := collect_block_loop_le m fuel ([] ++ [c]) (advance s 1)
            rw [h1] at this; omega
          · split
            · rename_i ht
              exact absurd ht (by decide)
            · split
              · exact hct
              · split
                · exact hct
                · exact hct

/-- When any input remains, one call to `collect_block` strictly consumes. -/
theorem collect_block_strict (m : Bindings) (s : PState) (h : s.rest ≠ []) :
    (((collect_block m s).2).rest).length < s.rest.length := by
  cases hr : s.rest with
  | nil => exact absurd hr h
  | cons c r =>
    have hf : s.rest.length + 1 = (r.length + 1) + 1 := by rw [hr]; simp
    have := collect_block_loop_strict m (r.length + 1) s c r hr
    simp only [collect_block, hf]
    simp only [List.length_cons]
    omega

theorem parse_loop_eq_drive (m : Bindings) (fuel : Nat) :
    ∀ s nodes root, s.rest.length < fuel →
      parse_loop m fuel s nodes root =
        drive nodes root (block_stream m fuel s) := by
  induction fuel with
  | zero => intro s nodes root h; omega
  | succ fuel ih =>
    intro s nodes root h
    simp only [parse_loop, block_stream]
    by_cases hs : s.rest.isEmpty
    · simp [hs, drive]
    · simp only [hs, if_neg, Bool.false_eq_true, ite_false]
      have hne : s.rest ≠ [] := by
        intro hx
        rw [hx] at hs
        simp at hs
      have hlt : (((collect_block m s).2).rest).length < fuel := by
        have := collect_block_strict m s hne
        omega
      split
      · simp [drive]
      · simp [drive]
      · simp [drive]
      · rename_i action node hblk
        cases action with
        | AddChild =>
          simp only [drive]
          exact ih _ _ _ hlt
        | AddChildAndBranch =>
          simp only [drive]
          exact ih _ _ _ hlt
        | End =>
          simp only [drive]
          cases hp : (getN nodes root).parent with
          | none => simp
          | some p => exact ih _ _ _ hlt
        | Ignore =>
          simp only [drive]
          exact ih _ _ _ hlt

/-- `parse` is the driver fold applied to the block stream. -/
theorem parse_eq_drive (m : Bindings) (src : List Char) :
    parse m src =
      drive [mkNode StandardNodeType.Root] 0
        (block_stream m (src.length + 1) ⟨src, 0, 0⟩) :=
  parse_loop_eq_drive m (src.length + 1) ⟨src, 0, 0⟩ _ 0 (Nat.lt_succ_self _)

theorem nb_cons_other (a : ParserAction) (l : List ParserAction) (d : Nat)
    (hne : a ≠ ParserAction.End) (hnb : a ≠ ParserAction.AddChildAndBranch)
    (h : NeverBelow (a :: l) d) : NeverBelow l d := by
  intro n hn
  have := h (n + 1) (by simp; omega)
  simp only [List.take_succ_cons, countE, countB, List.countP_cons] at this
  simp only [countE, countB]
  simp [hne, hnb] at this
  exact this

theorem nb_cons_branch (l : List ParserAction) (d : Nat)
    (h : NeverBelow (ParserAction.AddChildAndBranch :: l) d) :
    NeverBelow l (d + 1) := by
  intro n hn
  have := h (n + 1) (by simp; omega)
  simp only [List.take_succ_cons, countE, countB, List.countP_cons] at this
  simp only [countE, countB]
  simp at this
  omega

theorem nb_cons_end (l : List ParserAction) (d : Nat)
    (h : NeverBelow (ParserAction.End :: l) d) :
    1 ≤ d ∧ NeverBelow l (d - 1) := by
  constructor
  · have := h 1 (by simp)
    simp [countE, countB, List.countP_cons] at this
    omega
  · intro n hn
    have h1 := h 1 (by simp)
    simp [countE, countB, List.countP_cons] at h1
    have := h (n + 1) (by simp; omega)
    simp only [List.take_succ_cons, countE, countB, List.countP_cons] at this
    simp only [countE, countB]
    simp at this
    omega

theorem add_child_length (nodes : List Node) (p : Nat) (t : Node) :
    ((add_child nodes p t).1).length = nodes.length + 1 := by
  simp [add_child]

theorem getN_add_child_old (nodes : List Node) (p : Nat) (t : Node)
    (hp : p < nodes.length) (i : Nat) (hi : i < nodes.length) :
    getN (add_child nodes p t).1 i =
      if i = p then
        { getN nodes p with
            children := (getN nodes p).children ++ [nodes.length] }
      else getN nodes i := by
  unfold add_child
  simp only [getN, List.getD_eq_getElem?_getD]
  rw [List.getElem?_append_left (by rw [List.length_set]; omega)]
  by_cases hip : i = p
  · subst hip
    rw [List.getElem?_set_eq_of_lt _ hi]
    simp [getN, List.getD_eq_getElem?_getD]
  · rw [List.getElem?_set_ne (fun hx => hip hx.symm)]
    simp [hip]

theorem getN_add_child_new (nodes : List Node) (p : Nat) (t : Node) :
    getN (add_child nodes p t).1 nodes.length =
      { t with num := (getN nodes p).children.length, parent := some p } := by
  unfold add_child
  simp only [getN, List.getD_eq_getElem?_getD]
  rw [List.getElem?_append_right (le_of_eq (List.length_set nodes p _))]
  rw [List.length_set]
  simp [getN, List.getD_eq_getElem?_getD]

theorem chain_add_child (nodes : List Node) (p : Nat) (t : Node)
    (hp : p < nodes.length) (hs : SibInv nodes) :
    ∀ bs cur, cur < nodes.length → Chain nodes cur bs →
      Chain (add_child nodes p t).1 cur bs := by
  intro bs
  induction bs with
  | nil => intro cur _ h; exact h
  | cons q bs ih =>
    intro cur hcur hch
    obtain ⟨hpar, hch'⟩ := hch
    have hq := (hs cur hcur q hpar).1
    refine ⟨?_, ih q (lt_trans hq hcur) hch'⟩
    rw [getN_add_child_old nodes p t hp cur hcur]
    by_cases hcp : cur = p
    · rw [if_pos hcp]
      show (getN nodes p).parent = some q
      rw [← hcp]
      exact hpar
    · rw [if_neg hcp]
      exact hpar

theorem sibinv_add_child (nodes : List Node) (p : Nat) (t : Node)
    (hp : p < nodes.length) (hs : SibInv nodes) :
    SibInv (add_child nodes p t).1 := by
  intro i hi q hq
  rw [add_child_length] at hi
  by_cases hin : i = nodes.length
  · subst hin
    rw [getN_add_child_new nodes p t] at hq ⊢
    have hqp : q = p := by
      have hx : some p = some q := hq
      exact (Option.some_inj.mp hx).symm
    refine ⟨by rw [hqp]; exact hp, ?_⟩
    rw [hqp, getN_add_child_old nodes p t hp p hp, if_pos rfl]
    show ((getN nodes p).children ++ [nodes.length])[
      (getN nodes p).children.length]? = some nodes.length
    exact List.getElem?_concat_length _ _
  · have hi' : i < nodes.length := by omega
    have hAi := getN_add_child_old nodes p t hp i hi'
    have hparAi : (getN (add_child nodes p t).1 i).parent =
        (getN nodes i).parent := by
      rw [hAi]
      by_cases hip : i = p
      · rw [if_pos hip]
        show (getN nodes p).parent = (getN nodes i).parent
        rw [← hip]
      · rw [if_neg hip]
    have hnumAi : (getN (add_child nodes p t).1 i).num =
        (getN nodes i).num := by
      rw [hAi]
      by_cases hip : i = p
      · rw [if_pos hip]
        show (getN nodes p).num = (getN nodes i).num
        rw [← hip]
      · rw [if_neg hip]
    have hqold : (getN nodes i).parent = some q := by
      rw [← hparAi]
      exact hq
    obtain ⟨hqi, hqc⟩ := hs i hi' q hqold
    have hq' : q < nodes.length := lt_trans hqi hi'
    have hlt : (getN nodes i).num < ((getN nodes q).children).length := by
      by_contra hge
      rw [List.getElem?_eq_none (by omega)] at hqc
      cases hqc
    refine ⟨hqi, ?_⟩
    rw [hnumAi, getN_add_child_old nodes p t hp q hq']
    by_cases hqp : q = p
    · rw [if_pos hqp]
      rw [hqp] at hqc hlt
      show ((getN nodes p).children ++ [nodes.length])[
        (getN nodes i).num]? = some i
      rw [List.getElem?_append_left hlt]
      exact hqc
    · rw [if_neg hqp]
      exact hqc

theorem rootinv_add_child (nodes : List Node) (p : Nat) (t : Node)
    (hp : p < nodes.length) (hr : RootInv nodes) :
    RootInv (add_child nodes p t).1 := by
  obtain ⟨hlen, hpar, htype⟩ := hr
  have h0 := getN_add_child_old nodes p t hp 0 hlen
  refine ⟨by rw [add_child_length]; omega, ?_, ?_⟩
  · rw [h0]
    by_cases hq : (0 : Nat) = p
    · rw [if_pos hq]
      show (getN nodes p).parent = none
      rw [← hq]
      exact hpar
    · rw [if_neg hq]
      exact hpar
  · rw [h0]
    by_cases hq : (0 : Nat) = p
    · rw [if_pos hq]
      show (getN nodes p).type = Sum.inl StandardNodeType.Root
      rw [← hq]
      exact htype
    · rw [if_neg hq]
      exact htype

theorem countE_cons_of_ne (a : ParserAction) (l : List ParserAction)
    (h : (a == ParserAction.End) = false) : countE (a :: l) = countE l := by
  simp [countE, List.countP_cons, h]

theorem countB_cons_of_ne (a : ParserAction) (l : List ParserAction)
    (h : (a == ParserAction.AddChildAndBranch) = false) :
    countB (a :: l) = countB l := by
  simp [countB, List.countP_cons, h]

theorem countE_cons_end (l : List ParserAction) :
    countE (ParserAction.End :: l) = countE l + 1 := by
  simp [countE, List.countP_cons]

theorem countB_cons_branch (l : List ParserAction) :
    countB (ParserAction.AddChildAndBranch :: l) = countB l + 1 := by
  simp [countB, List.countP_cons]

/-- Master invariant of the driver fold: over an error-free block stream
whose actions never close more branches than are open, `drive` succeeds,
preserves the arena invariants, and ends on a branch whose remaining open
depth matches the branch/end count difference. -/
theorem drive_spec :
    ∀ items nodes cur bs, stream_ok items → SibInv nodes → RootInv nodes →
      cur < nodes.length → Chain nodes cur bs →
      NeverBelow (actions items) bs.length →
      ∃ nodes' cur' bs',
        drive nodes cur items = ParseResult.ok nodes' cur' ∧
        SibInv nodes' ∧ RootInv nodes' ∧ cur' < nodes'.length ∧
        Chain nodes' cur' bs' ∧
        bs'.length + countE (actions items) =
          bs.length + countB (actions items) := by
  intro items
  induction items with
  | nil =>
    intro nodes cur bs _ hs hr hc hch _
    exact ⟨nodes, cur, bs, rfl, hs, hr, hc, hch, by
      simp [actions, countB, countE]⟩
  | cons item rest ih =>
    intro nodes cur bs hok hs hr hc hch hnb
    have hokr : stream_ok rest := fun r hmem =>
      hok r (List.mem_cons_of_mem _ hmem)
    cases item with
    | synErr e =>
      have := hok _ (List.mem_cons_self _ _)
      simp [is_block] at this
    | tagErr e =>
      have := hok _ (List.mem_cons_self _ _)
      simp [is_block] at this
    | block a n =>
      have hact : actions (BlockResult.block a n :: rest) =
          a :: actions rest := by simp [actions]
      rw [hact] at hnb
      rw [hact]
      cases a with
      | AddChild =>
        have hs1 := sibinv_add_child nodes cur n hc hs
        have hr1 := rootinv_add_child nodes cur n hc hr
        have hc1 : cur < ((add_child nodes cur n).1).length := by
          rw [add_child_length]; omega
        have hch1 := chain_add_child nodes cur n hc hs bs cur hc hch
        have hnb1 : NeverBelow (actions rest) bs.length :=
          nb_cons_other _ _ _ (by decide) (by decide) hnb
        obtain ⟨nodes', cur', bs', h1, h2, h3, h4, h5, h6⟩ :=
          ih _ cur bs hokr hs1 hr1 hc1 hch1 hnb1
        refine ⟨nodes', cur', bs', ?_, h2, h3, h4, h5, ?_⟩
        · simp only [drive]
          exact h1
        · rw [countE_cons_of_ne _ _ (by decide),
            countB_cons_of_ne _ _ (by decide)]
          exact h6
      | AddChildAndBranch =>
        have hs1 := sibinv_add_child nodes cur n hc hs
        have hr1 := rootinv_add_child nodes cur n hc hr
        have hc1 : nodes.length < ((add_child nodes cur n).1).length := by
          rw [add_child_length]; omega
        have hch1 : Chain (add_child nodes cur n).1 nodes.length
            (cur :: bs) := by
          refine ⟨?_, chain_add_child nodes cur n hc hs bs cur hc hch⟩
          rw [getN_add_child_new]
        have hnb1 : NeverBelow (actions rest) (cur :: bs).length := by
          have := nb_cons_branch _ _ hnb
          simpa using this
        obtain ⟨nodes', cur', bs', h1, h2, h3, h4, h5, h6⟩ :=
          ih _ nodes.length (cur :: bs) hokr hs1 hr1 hc1 hch1 hnb1
        refine ⟨nodes', cur', bs', ?_, h2, h3, h4, h5, ?_⟩
        · simp only [drive]
          exact h1
        · rw [countE_cons_of_ne _ _ (by decide), countB_cons_branch]
          simp only [List.length_cons] at h6
          omega
      | End =>
        obtain ⟨hd1, hnb1⟩ := nb_cons_end _ _ hnb
        cases bs with
        | nil => exact absurd hd1 (by simp)
        | cons q bs2 =>
          obtain ⟨hpar, hch2⟩ := hch
          have hqc := (hs cur hc q hpar).1
          have hql : q < nodes.length := lt_trans hqc hc
          have hnb2 : NeverBelow (actions rest) bs2.length := by
            have hlen : (q :: bs2).length - 1 = bs2.length := by simp
            rw [hlen] at hnb1
            exact hnb1
          obtain ⟨nodes', cur', bs', h1, h2, h3, h4, h5, h6⟩ :=
            ih nodes q bs2 hokr hs hr hql hch2 hnb2
          refine ⟨nodes', cur', bs', ?_, h2, h3, h4, h5, ?_⟩
          · simp only [drive, hpar]
            exact h1
          · rw [countE_cons_end, countB_cons_of_ne _ _ (by decide)]
            simp only [List.length_cons]
            omega
      | Ignore =>
        have hnb1 : NeverBelow (actions rest) bs.length :=
          nb_cons_other _ _ _ (by decide) (by decide) hnb
        obtain ⟨nodes', cur', bs', h1, h2, h3, h4, h5, h6⟩ :=
          ih nodes cur bs hokr hs hr hc hch hnb1
        refine ⟨nodes', cur', bs', ?_, h2, h3, h4, h5, ?_⟩
        · simp only [drive]
          exact h1
        · rw [countE_cons_of_ne _ _ (by decide),
            countB_cons_of_ne _ _ (by decide)]
          exact h6

theorem init_sib : SibInv [mkNode StandardNodeType.Root] := by
  intro i hi q hq
  have hi0 : i = 0 := by
    simp at hi
    omega
  subst hi0
  simp [getN, mkNode] at hq

theorem init_root : RootInv [mkNode StandardNodeType.Root] := by
  refine ⟨by simp, ?_, ?_⟩ <;> simp [getN, mkNode]

/-- Claim C2: on an input whose block stream is error-free and whose
branch-opening tags are all matched by a later `#end` (no prefix closes more
than it opened and the totals agree), `parse` returns the original root node
(index 0, type Root, no parent), and every non-root node's sibling index
`num` is exactly its position in its parent's child list. -/
theorem branch_balance_returns_root (src : List Char)
    (hok : stream_ok
      (block_stream defaultBindings (src.length + 1) ⟨src, 0, 0⟩))
    (hnb : NeverBelow
      (actions (block_stream defaultBindings (src.length + 1) ⟨src, 0, 0⟩)) 0)
    (hbal : countE
        (actions (block_stream defaultBindings (src.length + 1) ⟨src, 0, 0⟩)) =
      countB
        (actions (block_stream defaultBindings (src.length + 1) ⟨src, 0, 0⟩))) :
    ∃ nodes',
      parse defaultBindings src = ParseResult.ok nodes' 0 ∧
      (getN nodes' 0).type = Sum.inl StandardNodeType.Root ∧
      (getN nodes' 0).parent = none ∧
      ∀ i, i < nodes'.length → ∀ q, (getN nodes' i).parent = some q →
        ((getN nodes' q).children)[(getN nodes' i).num]? = some i := by
  obtain ⟨nodes', cur', bs', h1, h2, h3, h4, h5, h6⟩ :=
    drive_spec (block_stream defaultBindings (src.length + 1) ⟨src, 0, 0⟩)
      [mkNode StandardNodeType.Root] 0 [] hok init_sib init_root (by simp)
      rfl (by simpa using hnb)
  have hbs : bs' = [] := by
    simp only [List.length_nil, Nat.zero_add, hbal] at h6
    have : bs'.length = 0 := by omega
    exact List.length_eq_zero.mp this
  rw [hbs] at h5
  have hcur : cur' = 0 := h5
  refine ⟨nodes', ?_, h3.2.2, h3.2.1, fun i hi q hq => (h2 i hi q hq).2⟩
  rw [parse_eq_drive, h1, hcur]

/-- Claim C2 witness: the balanced document `"#center#end"` satisfies the
hypotheses, and `parse` hands back the root. -/
theorem branch_balance_returns_root_witness :
    stream_ok (block_stream defaultBindings
      ("#center#end".toList.length + 1) ⟨"#center#end".toList, 0, 0⟩) ∧
    NeverBelow (actions (block_stream defaultBindings
      ("#center#end".toList.length + 1) ⟨"#center#end".toList, 0, 0⟩)) 0 ∧
    countE (actions (block_stream defaultBindings
        ("#center#end".toList.length + 1) ⟨"#center#end".toList, 0, 0⟩)) =
      countB (actions (block_stream defaultBindings
        ("#center#end".toList.length + 1) ⟨"#center#end".toList, 0, 0⟩)) ∧
    ∃ nodes',
      parse defaultBindings "#center#end".toList =
        ParseResult.ok nodes' 0 ∧
      (getN nodes' 0).type = Sum.inl StandardNodeType.Root ∧
      (getN nodes' 0).parent = none ∧
      ∀ i, i < nodes'.length → ∀ q, (getN nodes' i).parent = some q →
        ((getN nodes' q).children)[(getN nodes' i).num]? = some i :=
  ⟨by decide, by decide, by decide,
    branch_balance_returns_root "#center#end".toList
      (by decide) (by decide) (by decide)⟩

/-- Claim C3: on an input whose block stream is error-free, never closes an
unopened branch, but opens more branches than it closes (some branch is
left unclosed at end of input), `parse` still terminates successfully and
returns the current branch — a node that is not the document root and has a
parent — with no error reported. -/
theorem unbalanced_eof_returns_subtree (src : List Char)
    (hok : stream_ok
      (block_stream defaultBindings (src.length + 1) ⟨src, 0, 0⟩))
    (hnb : NeverBelow
      (actions (block_stream defaultBindings (src.length + 1) ⟨src, 0, 0⟩)) 0)
    (hlt : countE
        (actions (block_stream defaultBindings (src.length + 1) ⟨src, 0, 0⟩)) <
      countB
        (actions (block_stream defaultBindings (src.length + 1) ⟨src, 0, 0⟩))) :
    ∃ nodes' cur',
      parse defaultBindings src = ParseResult.ok nodes' cur' ∧
      cur' ≠ 0 ∧ (getN nodes' cur').parent ≠ none := by
  obtain ⟨nodes', cur', bs', h1, h2, h3, h4, h5, h6⟩ :=
    drive_spec (block_stream defaultBindings (src.length + 1) ⟨src, 0, 0⟩)
      [mkNode StandardNodeType.Root] 0 [] hok init_sib init_root (by simp)
      rfl (by simpa using hnb)
  cases bs' with
  | nil =>
    simp only [List.length_nil, Nat.zero_add, List.length_cons] at h6
    omega
  | cons q bs2 =>
    obtain ⟨hpar, _⟩ := h5
    refine ⟨nodes', cur', by rw [parse_eq_drive, h1], ?_, ?_⟩
    · intro h0
      rw [h0, h3.2.1] at hpar
      cases hpar
    · rw [hpar]
      simp

/-- Claim C3 witness: `"#center"` leaves its branch open; `parse` returns the
Center node, which has a parent, not the root. -/
theorem unbalanced_eof_returns_subtree_witness :
    stream_ok (block_stream defaultBindings
      ("#center".toList.length + 1) ⟨"#center".toList, 0, 0⟩) ∧
    NeverBelow (actions (block_stream defaultBindings
      ("#center".toList.length + 1) ⟨"#center".toList, 0, 0⟩)) 0 ∧
    countE (actions (block_stream defaultBindings
        ("#center".toList.length + 1) ⟨"#center".toList, 0, 0⟩)) <
      countB (actions (block_stream defaultBindings
        ("#center".toList.length + 1) ⟨"#center".toList, 0, 0⟩)) ∧
    ∃ nodes' cur',
      parse defaultBindings "#center".toList = ParseResult.ok nodes' cur' ∧
      cur' ≠ 0 ∧ (getN nodes' cur').parent ≠ none :=
  ⟨by decide, by decide, by decide,
    unbalanced_eof_returns_subtree "#center".toList
      (by decide) (by decide) (by decide)⟩

/-- Claim C1: parsing `"#\n#center\nTHIS IS THE TITLE\n#end\n"` succeeds and
produces exactly root → [LineBreak, Center → [Text "THIS IS THE TITLE"]]:
the returned node is the Root (index 0) with children the LineBreak (index
1) and the Center (index 2), whose single child is the Text node (index 3)
with text `"THIS IS THE TITLE"`. -/
theorem round_trip_example :
    parse defaultBindings "#\n#center\nTHIS IS THE TITLE\n#end\n".toList =
      ParseResult.ok
        [⟨Sum.inl StandardNodeType.Root, none, none, none, [1, 2], 0⟩,
         ⟨Sum.inl StandardNodeType.LineBreak, none,
           some ⟨[], ⟨0, 1⟩, []⟩, some 0, [], 0⟩,
         ⟨Sum.inl StandardNodeType.Center, none,
           some ⟨"center".toList, ⟨1, 1⟩, []⟩, some 0, [3], 1⟩,
         ⟨Sum.inl StandardNodeType.Text, some "THIS IS THE TITLE".toList,
           none, some 2, [], 0⟩] 0 := by
  decide

/-- Claim C7: parsing `"#end"` alone processes an End action at the parentless
root and fails with a NodeError carrying the Null node produced by the end
handler — but the message in the source is the misspelled
`"Unexpected branch return at root leve"` (no final `l`), not
`"Unexpected branch return at root level"` as documented. -/
theorem unbalanced_end_node_error :
    parse defaultBindings "#end".toList =
      ParseResult.nodeErr
        ⟨"Unexpected branch return at root leve",
         ⟨Sum.inl StandardNodeType.Null, none,
           some ⟨"end".toList, ⟨0, 1⟩, []⟩, none, [], 0⟩⟩ ∧
    "Unexpected branch return at root leve" ≠
      "Unexpected branch return at root level" := by
  exact ⟨by decide, by decide⟩

/-- Claim C8: `"#tag(a,b,c)"` yields the Tag named `"tag"` with arguments exactly
`["a", "b", "c"]` in order (also visible on the attached node when a handler
for `"tag"` is registered), while `"#tag(a,b"`, which ends before the
closing parenthesis, makes `parse` fail — whatever the bindings — with
`SyntaxError "Unexpected EOF"` at the current location (line 0, column 8). -/
theorem tag_argument_collection :
    (collect_tag ⟨"#tag(a,b,c)".toList, 0, 0⟩).1 =
      Sum.inl ⟨"tag".toList, ⟨0, 1⟩,
        [['a'], ['b'], ['c']]⟩ ∧
    parse (add_tag_binding "tag".toList customTagHandler defaultBindings)
        "#tag(a,b,c)".toList =
      ParseResult.ok
        [⟨Sum.inl StandardNodeType.Root, none, none, none, [1], 0⟩,
         ⟨Sum.inr "tag".toList, none,
           some ⟨"tag".toList, ⟨0, 1⟩, [['a'], ['b'], ['c']]⟩,
           some 0, [], 0⟩] 0 ∧
    ∀ m : Bindings, parse m "#tag(a,b".toList =
      ParseResult.synErr ⟨"Unexpected EOF", ⟨0, 8⟩⟩ := by
  exact ⟨by decide, by decide, fun m => rfl⟩

/-- Claim C10: the one-character input `"#"` parses successfully: the failed
lookahead for `"("` consumes nothing and its error is suppressed inside
`collect_tag`, the `"#"` resolves to the empty-name tag with zero
arguments, and a LineBreak child is attached to the root. -/
theorem lone_hash_line_break :
    (collect_tag ⟨"#".toList, 0, 0⟩).1 =
      Sum.inl ⟨[], ⟨0, 1⟩, []⟩ ∧
    parse defaultBindings "#".toList =
      ParseResult.ok
        [⟨Sum.inl StandardNodeType.Root, none, none, none, [1], 0⟩,
         ⟨Sum.inl StandardNodeType.LineBreak, none,
           some ⟨[], ⟨0, 1⟩, []⟩, some 0, [], 0⟩] 0 := by
  exact ⟨by decide, by decide⟩

theorem collect_args_args_nonempty (fuel : Nat) :
    ∀ tag s t', (∀ a ∈ tag.arguments, a ≠ []) →
      (collect_args fuel tag s).1 = Sum.inl t' →
      ∀ a ∈ t'.arguments, a ≠ [] := by
  induction fuel with
  | zero =>
    intro tag s t' h hq
    simp [collect_args] at hq
    rw [← hq]
    exact h
  | succ fuel ih =>
    intro tag s t' h hq
    simp only [collect_args] at hq
    have h1 : ∀ a ∈ (if ((collect_sequence (skip_whitespace s)).1).isEmpty
        then tag
        else tag.add_argument (collect_sequence (skip_whitespace s)).1).arguments,
        a ≠ [] := by
      by_cases he : ((collect_sequence (skip_whitespace s)).1).isEmpty
      · simpa [he] using h
      · simp only [he, if_neg, Bool.false_eq_true, ite_false, Tag.add_argument]
        intro a ha
        rcases List.mem_append.mp ha with hx | hx
        · exact h a hx
        · rw [List.mem_singleton.mp hx]
          intro hc
          rw [hc] at he
          simp at he
    split at hq
    · cases hq
    · split at hq
      · have ht : _ = t' := Sum.inl.inj hq
        rw [← ht]
        exact h1
      · exact ih _ _ t' h1 hq

theorem collect_tag_args_nonempty (s : PState) (t' : Tag)
    (hq : (collect_tag s).1 = Sum.inl t') :
    ∀ a ∈ t'.arguments, a ≠ [] := by
  simp only [collect_tag] at hq
  split at hq
  · have ht : _ = t' := Sum.inl.inj hq
    rw [← ht]
    intro a ha
    cases ha
  · exact collect_args_args_nonempty _ _ _ t' (fun a ha => by cases ha) hq

/-- Claim C9 counterexample: the argument run before the comma in `"#tag(,a)"` is
empty, and the collector does not record it: the arguments are exactly
`["a"]`, not `["", "a"]` as the claim states. -/
theorem empty_argument_not_recorded_cex :
    (collect_tag ⟨"#tag(,a)".toList, 0, 0⟩).1 =
      Sum.inl ⟨"tag".toList, ⟨0, 1⟩, [['a']]⟩ ∧
    ([['a']] : List (List Char)) ≠ [[], ['a']] := by
  exact ⟨by decide, by decide⟩

/-- Claim C9 (amended): an empty identifier run in argument position is accepted
without error, but no empty-string argument is recorded: `"#tag(,a)"`
succeeds with argument list exactly `["a"]`, and every argument of any tag
returned by `collect_tag` is non-empty. -/
theorem empty_argument_skipped :
    (collect_tag ⟨"#tag(,a)".toList, 0, 0⟩).1 =
      Sum.inl ⟨"tag".toList, ⟨0, 1⟩, [['a']]⟩ ∧
    ∀ s t', (collect_tag s).1 = Sum.inl t' →
      ∀ a ∈ t'.arguments, a ≠ [] := by
  exact ⟨by decide, collect_tag_args_nonempty⟩

/-- Claim C9 witness: instantiating the amended claim on `"#tag(,a)"`: its single
recorded argument `"a"` is non-empty. -/
theorem empty_argument_skipped_witness :
    (collect_tag ⟨"#tag(,a)".toList, 0, 0⟩).1 =
      Sum.inl ⟨"tag".toList, ⟨0, 1⟩, [['a']]⟩ ∧
    ('a' :: [] : List Char) ≠ [] :=
  ⟨empty_argument_skipped.1,
    empty_argument_skipped.2 ⟨"#tag(,a)".toList, 0, 0⟩
      ⟨"tag".toList, ⟨0, 1⟩, [['a']]⟩ (by decide) ['a'] (by decide)⟩

theorem take_reverse_dropWhile {α : Type} (p : α → Bool) (l : List α) :
    l.take (l.length - (l.reverse.takeWhile p).length) =
      (l.reverse.dropWhile p).reverse := by
  set A := l.reverse.takeWhile p with hA
  set B := l.reverse.dropWhile p with hB
  have h2 : l = B.reverse ++ A.reverse := by
    rw [hA, hB, ← List.reverse_append, List.takeWhile_append_dropWhile,
      List.reverse_reverse]
  have hlen : l.length = A.length + B.length := by
    rw [hA, hB, ← List.length_append, List.takeWhile_append_dropWhile,
      List.length_reverse]
  have hn : l.length - A.length = B.reverse.length := by
    rw [hlen, List.length_reverse]
    omega
  rw [hn]
  conv_lhs => rw [h2]
  exact List.take_left _ _

/-- `Parser::trim` removes the leading whitespace run and the trailing
whitespace run, nothing else. -/
theorem trim_eq (s : List Char) :
    trim s = ((s.dropWhile isspace).reverse.dropWhile isspace).reverse :=
  take_reverse_dropWhile isspace (s.dropWhile isspace)

/-- Claim C4 counterexample: scanning `" a"` buffers a leading space (the buffer
becomes `" a"`), yet the emitted Text node's text is `"a"`: trimming removed
the leading space, so the emitted text is not the buffer with only trailing
whitespace removed. -/
theorem leading_space_trimmed_cex :
    parse defaultBindings " a".toList =
      ParseResult.ok
        [⟨Sum.inl StandardNodeType.Root, none, none, none, [1], 0⟩,
         ⟨Sum.inl StandardNodeType.Text, some "a".toList, none,
           some 0, [], 0⟩] 0 ∧
    trim " a".toList = "a".toList ∧
    "a".toList ≠ " a".toList := by
  exact ⟨by decide, by decide, by decide⟩

/-- Claim C4 (amended): whenever the block collector emits a Text node, the
node's text is the accumulated buffer with BOTH its leading and its
trailing whitespace runs removed — leading whitespace buffered during
scanning is not preserved. Stated for the end-of-input emission site, with
`trim` characterized as stripping both ends. -/
theorem emitted_text_trimmed_both_ends (buf : List Char) :
    trim buf = ((buf.dropWhile isspace).reverse.dropWhile isspace).reverse ∧
    ∀ (m : Bindings) (fuel : Nat) (s : PState), s.rest = [] →
      (trim buf).isEmpty = false →
      collect_block_loop m (fuel + 1) buf s =
        (some (BlockResult.block ParserAction.AddChild
          (Node.textNode
            (((buf.dropWhile isspace).reverse.dropWhile isspace).reverse))),
         s) := by
  refine ⟨trim_eq buf, ?_⟩
  intro m fuel s hrest htrim
  rw [trim_eq] at htrim
  simp only [collect_block_loop, hrest, trim_eq, htrim, Bool.false_eq_true,
    ite_false]

/-- Claim C4 witness: at buffer `" a "` and exhausted input, the emitted text is
`"a"` — the leading space is removed together with the trailing one. -/
theorem emitted_text_trimmed_both_ends_witness :
    trim " a ".toList =
      ((" a ".toList.dropWhile isspace).reverse.dropWhile isspace).reverse ∧
    (⟨[], 3, 7⟩ : PState).rest = [] ∧
    (trim " a ".toList).isEmpty = false ∧
    collect_block_loop defaultBindings (0 + 1) " a ".toList ⟨[], 3, 7⟩ =
      (some (BlockResult.block ParserAction.AddChild
        (Node.textNode
          (((" a ".toList.dropWhile isspace).reverse.dropWhile
            isspace).reverse))),
       (⟨[], 3, 7⟩ : PState)) :=
  ⟨(emitted_text_trimmed_both_ends " a ".toList).1, rfl, by decide,
    (emitted_text_trimmed_both_ends " a ".toList).2 defaultBindings 0
      ⟨[], 3, 7⟩ rfl (by decide)⟩

theorem dropWhile_all_false {α : Type} (p : α → Bool) (l : List α)
    (h : ∀ c ∈ l, p c = false) : l.dropWhile p = l := by
  cases l with
  | nil => rfl
  | cons a t =>
    rw [List.dropWhile_cons]
    simp [h a (List.mem_cons_self a t)]

/-- Trimming is the identity on whitespace-free strings. -/
theorem trim_no_ws (l : List Char) (h : ∀ c ∈ l, isspace c = false) :
    trim l = l := by
  rw [trim_eq, dropWhile_all_false _ _ h,
    dropWhile_all_false _ _ (fun c hc => h c (List.mem_reverse.mp hc)),
    List.reverse_reverse]

/-- A run of `2 * k` consecutive `"#"` characters is consumed escape pair by
escape pair: each `"##"` appends one literal `"#"` to the buffer and
advances the cursor by two; one loop iteration (one fuel unit) per pair. -/
theorem hash_run (m : Bindings) :
    ∀ (k fuel : Nat) (buf : List Char) (s : PState),
      s.rest = List.replicate (2 * k) '#' →
      collect_block_loop m (fuel + k) buf s =
        collect_block_loop m fuel (buf ++ List.replicate k '#')
          ⟨[], s.line, s.column + 2 * k⟩ := by
  intro k
  induction k with
  | zero =>
    intro fuel buf s hrest
    cases s with
    | mk rest line col =>
      simp only [Nat.mul_zero, List.replicate] at hrest
      subst hrest
      simp
  | succ k ih =>
    intro fuel buf s hrest
    cases s with
    | mk rest line col =>
      have hrep : List.replicate (2 * (k + 1)) '#' =
          '#' :: '#' :: List.replicate (2 * k) '#' := by
        rw [show 2 * (k + 1) = (2 * k) + 1 + 1 by ring,
          List.replicate_succ, List.replicate_succ]
      simp only [] at hrest
      rw [hrep] at hrest
      subst hrest
      rw [show fuel + (k + 1) = (fuel + k) + 1 from rfl]
      simp only [collect_block_loop]
      have hqp : quick_peek
          ⟨'#' :: '#' :: List.replicate (2 * k) '#', line, col⟩ 1 = '#' := by
        simp [quick_peek]
      rw [if_neg (by decide), if_neg (by decide)]
      rw [hqp]
      rw [if_pos (by decide)]
      have hadv : advance ⟨'#' :: '#' :: List.replicate (2 * k) '#', line, col⟩ 2 =
          ⟨List.replicate (2 * k) '#', line, col + 2⟩ := by
        simp [advance]
      rw [hadv, ih fuel (buf ++ ['#']) _ rfl]
      have hx : (buf ++ ['#']) ++ List.replicate k '#' =
          buf ++ List.replicate (k + 1) '#' := by
        rw [List.append_assoc, List.replicate_succ, List.singleton_append]
      have hcol : (col + 2) + 2 * k = col + 2 * (k + 1) := by ring
      rw [hx]
      simp only []
      rw [hcol]

theorem block_stream_nil (m : Bindings) (fuel : Nat) (s : PState)
    (h : s.rest = []) : block_stream m fuel s = [] := by
  cases fuel with
  | zero => rfl
  | succ fuel => simp [block_stream, h]

/-- Claim C6: an input of `N` consecutive `"#"` characters with `N` even and at
least 2 parses to a single Text child containing exactly `N / 2` literal
`"#"` characters; no tag is dispatched. -/
theorem even_hash_escape (N : Nat) (h2 : 2 ≤ N) (hev : N % 2 = 0) :
    parse defaultBindings (List.replicate N '#') =
      ParseResult.ok
        [⟨Sum.inl StandardNodeType.Root, none, none, none, [1], 0⟩,
         ⟨Sum.inl StandardNodeType.Text, some (List.replicate (N / 2) '#'),
           none, some 0, [], 0⟩] 0 := by
  obtain ⟨j, hj⟩ : ∃ j, N / 2 = j + 1 := ⟨N / 2 - 1, by omega⟩
  have hN : N = 2 * (j + 1) := by omega
  subst hN
  rw [hj]
  rw [parse_eq_drive]
  have hrep : List.replicate (2 * (j + 1)) '#' =
      '#' :: '#' :: List.replicate (2 * j) '#' := by
    rw [show 2 * (j + 1) = (2 * j) + 1 + 1 by ring,
      List.replicate_succ, List.replicate_succ]
  have hnosp : ∀ c ∈ List.replicate (j + 1) '#', isspace c = false := by
    intro c hc
    rw [List.eq_of_mem_replicate hc]
    decide
  have htr : trim (List.replicate (j + 1) '#') = List.replicate (j + 1) '#' :=
    trim_no_ws _ hnosp
  have hcb : collect_block defaultBindings
      ⟨List.replicate (2 * (j + 1)) '#', 0, 0⟩ =
      (some (BlockResult.block ParserAction.AddChild
        (Node.textNode (List.replicate (j + 1) '#'))),
       ⟨[], 0, 0 + 2 * (j + 1)⟩) := by
    unfold collect_block
    rw [show ((⟨List.replicate (2 * (j + 1)) '#', 0, 0⟩ :
        PState).rest.length + 1) = (j + 2) + (j + 1) by
      simp only [List.length_replicate]
      omega]
    rw [hash_run defaultBindings (j + 1) (j + 2) [] _ rfl]
    rw [show (j + 2) = (j + 1) + 1 from rfl]
    simp only [collect_block_loop, List.nil_append, htr]
    rw [if_neg (by simp [List.replicate_succ])]
  have hstream : block_stream defaultBindings
      ((List.replicate (2 * (j + 1)) '#').length + 1)
      ⟨List.replicate (2 * (j + 1)) '#', 0, 0⟩ =
      [BlockResult.block ParserAction.AddChild
        (Node.textNode (List.replicate (j + 1) '#'))] := by
    rw [show ((List.replicate (2 * (j + 1)) '#').length + 1) =
      (2 * (j + 1)) + 1 by simp]
    rw [block_stream]
    rw [if_neg (by simp [hrep])]
    rw [hcb]
    show BlockResult.block ParserAction.AddChild
        (Node.textNode (List.replicate (j + 1) '#')) ::
      block_stream defaultBindings (2 * (j + 1)) ⟨[], 0, 0 + 2 * (j + 1)⟩ = _
    rw [block_stream_nil _ _ _ rfl]
  rw [hstream]
  simp only [drive, add_child, getN, mkNode]
  simp [Node.textNode]

/-- Claim C6 witness: `"####"` renders as the Text node `"##"`. -/
theorem even_hash_escape_witness :
    2 ≤ 4 ∧ 4 % 2 = 0 ∧
    parse defaultBindings (List.replicate 4 '#') =
      ParseResult.ok
        [⟨Sum.inl StandardNodeType.Root, none, none, none, [1], 0⟩,
         ⟨Sum.inl StandardNodeType.Text, some (List.replicate (4 / 2) '#'),
           none, some 0, [], 0⟩] 0 :=
  ⟨by decide, by decide, even_hash_escape 4 (by decide) (by decide)⟩

theorem ends_with_space_norm (buf : List Char) :
    ends_with_space (if ends_with_space buf then buf else buf ++ [' ']) =
      true := by
  by_cases h : ends_with_space buf
  · simp [h]
  · rw [if_neg h]
    simp [ends_with_space, List.getLast?_concat]

/-- One scanning step over an ordinary character (not tab, space, newline,
carriage return or `#`): the character is buffered verbatim and the cursor
advances one position. -/
theorem scan_plain_char (m : Bindings) (fuel : Nat) (buf : List Char)
    (c : Char) (rest' : List Char) (line col : Nat)
    (h1 : (c == '\t') = false) (h2 : (c == ' ') = false)
    (h3 : (c == '#') = false) (h4 : (c == '\n') = false)
    (h5 : (c == '\r') = false) :
    collect_block_loop m (fuel + 1) buf ⟨c :: rest', line, col⟩ =
      collect_block_loop m fuel (buf ++ [c]) ⟨rest', line, col + 1⟩ := by
  simp only [collect_block_loop]
  rw [if_neg (by simp [h1]), if_neg (by simp [h2]),
    if_neg (by simp [h3, Bool.and_false]),
    if_neg (by simp [h4, h5]),
    if_pos (by simp [bne, h3])]
  rw [show advance ⟨c :: rest', line, col⟩ 1 = ⟨rest', line, col + 1⟩ by
    simp [advance]]

/-- At end of input with a buffer whose trimmed form is non-empty, the
scanner emits the trimmed buffer as a Text block. -/
theorem scan_eof_emit (m : Bindings) (fuel : Nat) (buf : List Char)
    (line col : Nat) (h : (trim buf).isEmpty = false) :
    collect_block_loop m (fuel + 1) buf ⟨[], line, col⟩ =
      (some (BlockResult.block ParserAction.AddChild
        (Node.textNode (trim buf))), ⟨[], line, col⟩) := by
  simp only [collect_block_loop]
  rw [if_neg (by simp [h])]

/-- Scanning a run of whitespace characters (spaces, tabs, newlines,
carriage returns): tabs are discarded; the run contributes a single space
to the buffer exactly when it contains at least one non-tab character and
the buffer does not already end with a space. One fuel unit per character. -/
theorem scan_ws_run (m : Bindings) :
    ∀ (w : List Char) (fuel : Nat) (buf : List Char) (s : PState)
      (r : List Char),
      (∀ c ∈ w, c = ' ' ∨ c = '\t' ∨ c = '\n' ∨ c = '\r') →
      s.rest = w ++ r →
      ∃ line' col',
        collect_block_loop m (fuel + w.length) buf s =
          collect_block_loop m fuel
            (if w.any (fun x => x != '\t') && !ends_with_space buf
              then buf ++ [' '] else buf)
            ⟨r, line', col'⟩ := by
  intro w
  induction w with
  | nil =>
    intro fuel buf s r _ hrest
    cases s with
    | mk rest line col =>
      simp only [List.nil_append] at hrest
      subst hrest
      exact ⟨line, col, by simp⟩
  | cons c w' ih =>
    intro fuel buf s r hws hrest
    cases s with
    | mk rest line col =>
      simp only [] at hrest
      have hrest' : rest = c :: (w' ++ r) := by simpa using hrest
      subst hrest'
      have hws' : ∀ x ∈ w', x = ' ' ∨ x = '\t' ∨ x = '\n' ∨ x = '\r' :=
        fun x hx => hws x (List.mem_cons_of_mem _ hx)
      rw [show fuel + (c :: w').length = (fuel + w'.length) + 1 by
        simp only [List.length_cons]; omega]
      rcases hws c (List.mem_cons_self _ _) with hc | hc | hc | hc <;>
        subst hc
      · -- a space: buffered unless the buffer already ends with one
        simp only [collect_block_loop]
        rw [if_neg (by decide), if_pos (by decide)]
        rw [show advance ⟨' ' :: (w' ++ r), line, col⟩ 1 =
          ⟨w' ++ r, line, col + 1⟩ by simp [advance]]
        obtain ⟨l', c', hrec⟩ := ih fuel
          (if ends_with_space buf then buf else buf ++ [' '])
          ⟨w' ++ r, line, col + 1⟩ r hws' rfl
        refine ⟨l', c', ?_⟩
        rw [hrec]
        have hb : (if w'.any (fun x => x != '\t') && !ends_with_space
              (if ends_with_space buf then buf else buf ++ [' ']) then
              (if ends_with_space buf then buf else buf ++ [' ']) ++ [' ']
            else if ends_with_space buf then buf else buf ++ [' ']) =
            (if (' ' :: w').any (fun x => x != '\t') &&
                !ends_with_space buf then buf ++ [' '] else buf) := by
          rw [ends_with_space_norm, List.any_cons]
          rw [show ((' ' : Char) != '\t') = true from by decide]
          by_cases h : ends_with_space buf <;> simp [h]
        rw [hb]
      · -- a tab: discarded entirely
        simp only [collect_block_loop]
        rw [if_pos (by decide)]
        rw [show advance ⟨'\t' :: (w' ++ r), line, col⟩ 1 =
          ⟨w' ++ r, line, col + 1⟩ by simp [advance]]
        obtain ⟨l', c', hrec⟩ := ih fuel buf
          ⟨w' ++ r, line, col + 1⟩ r hws' rfl
        refine ⟨l', c', ?_⟩
        rw [hrec]
        rw [List.any_cons, show (('\t' : Char) != '\t') = false from by decide,
          Bool.false_or]
      · -- a newline: like a space, and the line counter advances
        simp only [collect_block_loop]
        rw [if_neg (by decide), if_neg (by decide),
          if_neg (by simp [show (('\n' : Char) == '#') = false from by decide,
            Bool.and_false]),
          if_pos (by decide)]
        rw [show advance_line (advance ⟨'\n' :: (w' ++ r), line, col⟩ 1) =
          ⟨w' ++ r, line + 1, 0⟩ by simp [advance, advance_line]]
        obtain ⟨l', c', hrec⟩ := ih fuel
          (if ends_with_space buf then buf else buf ++ [' '])
          ⟨w' ++ r, line + 1, 0⟩ r hws' rfl
        refine ⟨l', c', ?_⟩
        rw [hrec]
        have hb : (if w'.any (fun x => x != '\t') && !ends_with_space
              (if ends_with_space buf then buf else buf ++ [' ']) then
              (if ends_with_space buf then buf else buf ++ [' ']) ++ [' ']
            else if ends_with_space buf then buf else buf ++ [' ']) =
            (if ('\n' :: w').any (fun x => x != '\t') &&
                !ends_with_space buf then buf ++ [' '] else buf) := by
          rw [ends_with_space_norm, List.any_cons]
          rw [show (('\n' : Char) != '\t') = true from by decide]
          by_cases h : ends_with_space buf <;> simp [h]
        rw [hb]
      · -- a carriage return: treated exactly like a newline
        simp only [collect_block_loop]
        rw [if_neg (by decide), if_neg (by decide),
          if_neg (by simp [show (('\r' : Char) == '#') = false from by decide,
            Bool.and_false]),
          if_pos (by decide)]
        rw [show advance_line (advance ⟨'\r' :: (w' ++ r), line, col⟩ 1) =
          ⟨w' ++ r, line + 1, 0⟩ by simp [advance, advance_line]]
        obtain ⟨l', c', hrec⟩ := ih fuel
          (if ends_with_space buf then buf else buf ++ [' '])
          ⟨w' ++ r, line + 1, 0⟩ r hws' rfl
        refine ⟨l', c', ?_⟩
        rw [hrec]
        have hb : (if w'.any (fun x => x != '\t') && !ends_with_space
              (if ends_with_space buf then buf else buf ++ [' ']) then
              (if ends_with_space buf then buf else buf ++ [' ']) ++ [' ']
            else if ends_with_space buf then buf else buf ++ [' ']) =
            (if ('\r' :: w').any (fun x => x != '\t') &&
                !ends_with_space buf then buf ++ [' '] else buf) := by
          rw [ends_with_space_norm, List.any_cons]
          rw [show (('\r' : Char) != '\t') = true from by decide]
          by_cases h : ends_with_space buf <;> simp [h]
        rw [hb]

/-- The block produced for the text run `'a'`, a whitespace run `w`, `'b'`:
`"a b"` when `w` holds at least one space or newline, `"ab"` when `w` is
tabs only. -/
theorem collect_block_text_ws (w : List Char)
    (hws : ∀ c ∈ w, c = ' ' ∨ c = '\t' ∨ c = '\n' ∨ c = '\r') :
    ∃ line'' col'',
      collect_block defaultBindings ⟨'a' :: (w ++ ['b']), 0, 0⟩ =
        (some (BlockResult.block ParserAction.AddChild
          (Node.textNode
            ((if w.any (fun x => x != '\t') then ['a', ' '] else ['a']) ++
              ['b']))),
         ⟨[], line'', col''⟩) := by
  unfold collect_block
  rw [show ((⟨'a' :: (w ++ ['b']), 0, 0⟩ : PState).rest.length + 1) =
      (2 + w.length) + 1 by
    simp only [List.length_cons, List.length_append, List.length_nil]
    omega]
  rw [scan_plain_char defaultBindings (2 + w.length) [] 'a' (w ++ ['b'])
    0 0 (by decide) (by decide) (by decide) (by decide) (by decide)]
  simp only [List.nil_append]
  obtain ⟨l', c', hrec⟩ :=
    scan_ws_run defaultBindings w 2 ['a'] ⟨w ++ ['b'], 0, 1⟩ ['b'] hws rfl
  rw [hrec]
  rw [show ends_with_space ['a'] = false from by decide]
  simp only [Bool.not_false, Bool.and_true]
  by_cases hany : w.any (fun x => x != '\t') = true
  · rw [if_pos hany, if_pos hany]
    rw [show (2 : Nat) = 1 + 1 from rfl]
    rw [scan_plain_char defaultBindings 1 (['a'] ++ [' ']) 'b' [] l' c'
      (by decide) (by decide) (by decide) (by decide) (by decide)]
    rw [scan_eof_emit defaultBindings 0 ((['a'] ++ [' ']) ++ ['b']) l'
      (c' + 1) (by decide)]
    exact ⟨l', c' + 1, by rw [show trim ((['a'] ++ [' ']) ++ ['b']) =
      (['a', ' '] ++ ['b']) from by decide]⟩
  · have hany' : w.any (fun x => x != '\t') = false :=
      Bool.eq_false_iff.mpr hany
    rw [if_neg hany, if_neg hany]
    rw [show (2 : Nat) = 1 + 1 from rfl]
    rw [scan_plain_char defaultBindings 1 ['a'] 'b' [] l' c'
      (by decide) (by decide) (by decide) (by decide) (by decide)]
    rw [scan_eof_emit defaultBindings 0 (['a'] ++ ['b']) l' (c' + 1)
      (by decide)]
    exact ⟨l', c' + 1, by rw [show trim (['a'] ++ ['b']) =
      (['a'] ++ ['b']) from by decide]⟩

/-- Claim C5 counterexample: the whitespace run between `a` and `b` in `"a\tb"`
consists of a single tab; it collapses to nothing, not to one space: the
emitted text is `"ab"`, not `"a b"`. -/
theorem tab_only_run_vanishes_cex :
    parse defaultBindings "a\tb".toList =
      ParseResult.ok
        [⟨Sum.inl StandardNodeType.Root, none, none, none, [1], 0⟩,
         ⟨Sum.inl StandardNodeType.Text, some "ab".toList, none,
           some 0, [], 0⟩] 0 ∧
    "ab".toList ≠ "a b".toList := by
  exact ⟨by decide, by decide⟩

/-- Claim C5 (amended): a maximal run of spaces, tabs and newlines strictly
inside a text run collapses to exactly one space when it contains at least
one space or newline; a run consisting solely of tabs is discarded
entirely and contributes no space. Leading tabs are discarded without
interfering with recognition of a following `"#"` as a tag start. -/
theorem ws_collapse_amended (w : List Char)
    (hws : ∀ c ∈ w, c = ' ' ∨ c = '\t' ∨ c = '\n' ∨ c = '\r') :
    (w.any (fun x => x != '\t') = true →
      parse defaultBindings ('a' :: (w ++ ['b'])) =
        ParseResult.ok
          [⟨Sum.inl StandardNodeType.Root, none, none, none, [1], 0⟩,
           ⟨Sum.inl StandardNodeType.Text, some "a b".toList, none,
             some 0, [], 0⟩] 0) ∧
    (w.any (fun x => x != '\t') = false →
      parse defaultBindings ('a' :: (w ++ ['b'])) =
        ParseResult.ok
          [⟨Sum.inl StandardNodeType.Root, none, none, none, [1], 0⟩,
           ⟨Sum.inl StandardNodeType.Text, some "ab".toList, none,
             some 0, [], 0⟩] 0) ∧
    parse defaultBindings "\t#".toList =
      ParseResult.ok
        [⟨Sum.inl StandardNodeType.Root, none, none, none, [1], 0⟩,
         ⟨Sum.inl StandardNodeType.LineBreak, none,
           some ⟨[], ⟨0, 2⟩, []⟩, some 0, [], 0⟩] 0 := by
  obtain ⟨l'', c'', hcb⟩ := collect_block_text_ws w hws
  have hstream : ∀ txt, collect_block defaultBindings
        ⟨'a' :: (w ++ ['b']), 0, 0⟩ =
        (some (BlockResult.block ParserAction.AddChild (Node.textNode txt)),
         ⟨[], l'', c''⟩) →
      block_stream defaultBindings (('a' :: (w ++ ['b'])).length + 1)
        ⟨'a' :: (w ++ ['b']), 0, 0⟩ =
        [BlockResult.block ParserAction.AddChild (Node.textNode txt)] := by
    intro txt hcb'
    rw [block_stream]
    rw [if_neg (by simp)]
    rw [hcb']
    show BlockResult.block ParserAction.AddChild (Node.textNode txt) ::
      block_stream defaultBindings ('a' :: (w ++ ['b'])).length
        ⟨[], l'', c''⟩ = _
    rw [block_stream_nil _ _ _ rfl]
  refine ⟨?_, ?_, by decide⟩
  · intro hany
    rw [parse_eq_drive]
    have hcb1 := hcb
    rw [if_pos hany] at hcb1
    rw [hstream _ hcb1]
    simp only [drive, add_child, getN, mkNode]
    simp [Node.textNode]
  · intro hany
    rw [parse_eq_drive]
    have hcb1 := hcb
    rw [if_neg (by simp [hany])] at hcb1
    rw [hstream _ hcb1]
    simp only [drive, add_child, getN, mkNode]
    simp [Node.textNode]

/-- Claim C5 witness: the mixed run `" \t\n"` between `a` and `b` collapses to
one space; the tab-only run `"\t"` collapses to nothing; a leading tab does
not corrupt recognition of a following `"#"`. -/
theorem ws_collapse_amended_witness :
    (∀ c ∈ ([' ', '\t', '\n'] : List Char),
      c = ' ' ∨ c = '\t' ∨ c = '\n' ∨ c = '\r') ∧
    ([' ', '\t', '\n'] : List Char).any (fun x => x != '\t') = true ∧
    parse defaultBindings ('a' :: (([' ', '\t', '\n'] : List Char) ++ ['b'])) =
      ParseResult.ok
        [⟨Sum.inl StandardNodeType.Root, none, none, none, [1], 0⟩,
         ⟨Sum.inl StandardNodeType.Text, some "a b".toList, none,
           some 0, [], 0⟩] 0 ∧
    (∀ c ∈ (['\t'] : List Char),
      c = ' ' ∨ c = '\t' ∨ c = '\n' ∨ c = '\r') ∧
    (['\t'] : List Char).any (fun x => x != '\t') = false ∧
    parse defaultBindings ('a' :: ((['\t'] : List Char) ++ ['b'])) =
      ParseResult.ok
        [⟨Sum.inl StandardNodeType.Root, none, none, none, [1], 0⟩,
         ⟨Sum.inl StandardNodeType.Text, some "ab".toList, none,
           some 0, [], 0⟩] 0 :=
  ⟨by decide, by decide,
    (ws_collapse_amended [' ', '\t', '\n'] (by decide)).1 (by decide),
    by decide, by decide,
    (ws_collapse_amended ['\t'] (by decide)).2.1 (by decide)⟩

end Louvre
